import Mathlib

/-!
Verification of the two text-extraction functions of `src/utils/string.rs`
(`take_lines` and `take_anchored_lines`), over a shallow embedding in Lean.

Text is modelled as `List Char`.  The Rust iterator `str::lines()` is modelled by
`rustLines`: the text is split on `'\n'`; every piece that was followed by a
separator has one trailing `'\r'` removed (so that a `"\r\n"` pair acts as a
single separator); a final empty piece (arising from a trailing separator or
from the empty text) is dropped.  `usize` values are modelled as `Nat`, with
wrapping arithmetic written explicitly as `% USIZE` where the Rust source
performs unchecked `+ 1`; a separate checked variant models the overflow
check that a debug build performs on the same addition.

The regexes `ANCHOR:\s*([\w_-]+)` and `ANCHOR_END:\s*([\w_-]+)` are modelled
by a leftmost search for the literal token followed by a greedy whitespace
skip and a greedy nonempty run of name characters; since the whitespace class
and the name-character class are disjoint, this is exactly the leftmost-first
behaviour of the regex engine on these patterns.  The character classes are the
ASCII fragments of the regex classes (`\w` as ASCII alphanumerics plus
underscore, `\s` as ASCII whitespace); all texts evaluated in this
development are ASCII.
-/

namespace MdBookStringUtils

/-- Text is a sequence of characters. -/
abbrev Text := List Char

/-- Number of values of the machine integer type `usize` (64-bit). -/
def USIZE : Nat := 2 ^ 64

/-- One bound of a Rust `RangeBounds<usize>` value. -/
inductive Bound where
  | included : Nat → Bound
  | excluded : Nat → Bound
  | unbounded : Bound

/-- The payload of the bound is a genuine `usize` value. -/
def boundOk : Bound → Bool
  | .included n => decide (n < USIZE)
  | .excluded n => decide (n < USIZE)
  | .unbounded => true

/-- Split a text on the newline character; the separators are consumed.
This models `str::split('\n')`: there is always at least one piece, and a
trailing separator produces a trailing empty piece. -/
def splitNl : Text → List Text
  | [] => [[]]
  | c :: cs =>
    if c = '\n' then [] :: splitNl cs
    else (splitNl cs).modifyHead (fun p => c :: p)

/-- Join a list of lines with single newline separators and no trailing
separator; this models `Itertools::join("\n")` on an iterator of lines. -/
def joinNl : List Text → Text
  | [] => []
  | [l] => l
  | l :: ls => l ++ '\n' :: joinNl ls

/-- Remove one trailing carriage return, if present. -/
def stripCr (l : Text) : Text :=
  if l.getLast? = some '\r' then l.dropLast else l

/-- Turn the pieces produced by `splitNl` into the lines that the Rust
iterator `str::lines()` yields: every piece that was followed by a separator loses one
trailing `'\r'` (a `"\r\n"` pair is a single separator), and a final empty
piece is dropped (the final line ending is optional, and the empty text has
no lines). -/
def linesOfPieces : List Text → List Text
  | [] => []
  | [p] => if p = [] then [] else [p]
  | p :: ps => stripCr p :: linesOfPieces ps

/-- The model of the Rust iterator `str::lines()`. -/
def rustLines (s : Text) : List Text :=
  linesOfPieces (splitNl s)

/-- Resolution of the start bound performed by `take_lines`: an excluded
start bound `n` resolves to `n + 1`, computed in wrapping `usize`
arithmetic. -/
def resolvedStart : Bound → Nat
  | .excluded n => (n + 1) % USIZE
  | .included n => n
  | .unbounded => 0

/-- Model of `take_lines` from `src/utils/string.rs` under release (wrapping
overflow) semantics: resolve the start bound, skip that many lines, keep a
saturating-subtraction count of lines depending on the end bound, and rejoin
with newlines. -/
def take_lines (s : Text) (lo hi : Bound) : Text :=
  let ls := (rustLines s).drop (resolvedStart lo)
  match hi with
  | .excluded e => joinNl (ls.take (e - resolvedStart lo))
  | .included e => joinNl (ls.take ((e + 1) % USIZE - resolvedStart lo))
  | .unbounded => joinNl ls

/-- Checked `usize` increment: `none` models the arithmetic-overflow panic
of a debug build at `n + 1` when `n` is `usize::MAX`. -/
def checkedSucc (n : Nat) : Option Nat :=
  if n + 1 < USIZE then some (n + 1) else none

/-- Model of `take_lines` under debug (checked overflow) semantics: identical to
`take_lines` except that the two `+ 1` increments in the source are checked,
`none` standing for the overflow panic. -/
def take_linesChecked (s : Text) (lo hi : Bound) : Option Text :=
  match (match lo with
         | .excluded n => checkedSucc n
         | .included n => some n
         | .unbounded => some 0) with
  | none => none
  | some start =>
    let ls := (rustLines s).drop start
    match hi with
    | .excluded e => some (joinNl (ls.take (e - start)))
    | .included e =>
      match checkedSucc e with
      | none => none
      | some e1 => some (joinNl (ls.take (e1 - start)))
    | .unbounded => some (joinNl ls)

/-! ### The anchor extractor -/

/-- ASCII fragment of the regex class `\w` (word characters). -/
def isWordChar (c : Char) : Bool := c.isAlphanum || c = '_'

/-- The marker-name class `[\w_-]` of the two regexes. -/
def isNameChar (c : Char) : Bool := isWordChar c || c = '-'

/-- Decidable list-prefix test. -/
def isPre : Text → Text → Bool
  | [], _ => true
  | _ :: _, [] => false
  | a :: as, b :: bs => a = b && isPre as bs

/-- Match `lit` followed by `\s*` followed by a nonempty greedy run of
name characters, at the start of `l`; return the captured name.  Because the
whitespace class and the name class are disjoint, the greedy interpretation
is exactly the regex backtracking semantics. -/
def captureAt (lit : Text) (l : Text) : Option Text :=
  if isPre lit l then
    let rest := (l.drop lit.length).dropWhile (fun c => c.isWhitespace)
    let name := rest.takeWhile isNameChar
    if name = [] then none else some name
  else none

/-- Leftmost match of `lit \s* ([\w_-]+)` anywhere in the line, returning
the capture; this models `Regex::captures` for the two marker regexes. -/
def findCapture (lit : Text) : Text → Option Text
  | [] => none
  | c :: cs =>
    match captureAt lit (c :: cs) with
    | some n => some n
    | none => findCapture lit cs

/-- Model of `RE_START.captures(l)`, reduced to the `anchor_name` capture group. -/
def RE_START_capture (l : Text) : Option Text :=
  findCapture ("ANCHOR:".data) l

/-- Model of `RE_END.captures(l)`, reduced to the `anchor_name` capture group. -/
def RE_END_capture (l : Text) : Option Text :=
  findCapture ("ANCHOR_END:".data) l

/-- Model of `RE_START.is_match(l)`. -/
def RE_START_is_match (l : Text) : Bool :=
  (RE_START_capture l).isSome

/-- The `anchor_found = true` arm of the loop of `take_anchored_lines`: a
line whose end-marker capture equals the anchor breaks the scan; any other
line with an end-marker capture is dropped; a line matching the start
pattern is dropped; all remaining lines are retained. -/
def captureFrom (anchor : Text) : List Text → List Text
  | [] => []
  | l :: ls =>
    match RE_END_capture l with
    | some cap => if cap = anchor then [] else captureFrom anchor ls
    | none =>
      if RE_START_is_match l then captureFrom anchor ls
      else l :: captureFrom anchor ls

/-- The `anchor_found = false` arm of the loop of `take_anchored_lines`: a
line whose start-marker capture equals the anchor switches to capturing
(the marker line itself is not emitted); every other line is skipped. -/
def searchFrom (anchor : Text) : List Text → List Text
  | [] => []
  | l :: ls =>
    match RE_START_capture l with
    | some cap => if cap = anchor then captureFrom anchor ls else searchFrom anchor ls
    | none => searchFrom anchor ls

/-- Model of `take_anchored_lines` from `src/utils/string.rs`. -/
def take_anchored_lines (s : Text) (anchor : Text) : Text :=
  joinNl (searchFrom anchor (rustLines s))

/-- Retention test applied to each line scanned in the capturing state (for
lines that neither close the capture nor are markers). -/
def keepLine (l : Text) : Bool :=
  (RE_END_capture l).isNone && !(RE_START_is_match l)

/-! ### Range predicates used by the range-extractor claims -/

/-- The end bound resolves to a line index strictly below the resolved
start index (an inverted range). -/
def invertedRange (lo hi : Bound) : Bool :=
  match hi with
  | .included e => decide (e < resolvedStart lo)
  | .excluded e => decide (e < resolvedStart lo)
  | .unbounded => false

/-- The end bound is a finite index exceeding the line count `L`, and (for
an inclusive bound) its increment does not overflow `usize`. -/
def endExceedsOk (L : Nat) : Bound → Bool
  | .excluded e => decide (L < e)
  | .included e => decide (L < e) && decide (e + 1 < USIZE)
  | .unbounded => false

/-- Replace a finite end bound by the line count `L`. -/
def clampEnd (L : Nat) : Bound → Bound
  | .excluded _ => .excluded L
  | .included _ => .included L
  | .unbounded => .unbounded

/-- Neither of the two `+ 1` increments of `take_lines` overflows. -/
def noOverflow (lo hi : Bound) : Bool :=
  (match lo with
   | .excluded n => decide (n + 1 < USIZE)
   | _ => true) &&
  (match hi with
   | .included e => decide (e + 1 < USIZE)
   | _ => true)

/-! ### Basic lemmas about the line model -/

theorem splitNl_ne_nil (s : Text) : splitNl s ≠ [] := by
  induction s with
  | nil => simp [splitNl]
  | cons c cs ih =>
    simp only [splitNl]
    split
    · simp
    · cases h : splitNl cs with
      | nil => exact absurd h ih
      | cons p ps => simp [List.modifyHead]

theorem joinNl_cons_cons (c : Char) (q : Text) (qs : List Text) :
    joinNl ((c :: q) :: qs) = c :: joinNl (q :: qs) := by
  cases qs <;> simp [joinNl]

theorem joinNl_splitNl (s : Text) : joinNl (splitNl s) = s := by
  induction s with
  | nil => simp [splitNl, joinNl]
  | cons c cs ih =>
    simp only [splitNl]
    split
    · rename_i hc
      obtain ⟨q, qs, hq⟩ := List.exists_cons_of_ne_nil (splitNl_ne_nil cs)
      rw [hq] at ih ⊢
      cases qs <;> simp [joinNl] at ih ⊢ <;> simp [hc, ih]
    · obtain ⟨q, qs, hq⟩ := List.exists_cons_of_ne_nil (splitNl_ne_nil cs)
      rw [hq] at ih ⊢
      simp only [List.modifyHead]
      rw [joinNl_cons_cons, ih]

theorem splitNl_of_not_mem_nl {m : Text} (h : '\n' ∉ m) : splitNl m = [m] := by
  induction m with
  | nil => simp [splitNl]
  | cons c cs ih =>
    simp only [List.mem_cons, not_or] at h
    simp only [splitNl, if_neg (Ne.symm h.1)]
    rw [ih h.2]
    simp [List.modifyHead]

theorem splitNl_append_nl {m : Text} (t : Text) (h : '\n' ∉ m) :
    splitNl (m ++ '\n' :: t) = m :: splitNl t := by
  induction m with
  | nil => simp [splitNl]
  | cons c cs ih =>
    simp only [List.mem_cons, not_or] at h
    simp only [List.cons_append, splitNl, List.append_eq, if_neg (Ne.symm h.1)]
    rw [ih h.2]
    simp [List.modifyHead]

theorem mem_of_mem_splitNl {s p : Text} {c : Char}
    (hp : p ∈ splitNl s) (hc : c ∈ p) : c ∈ s := by
  induction s generalizing p with
  | nil =>
    simp [splitNl] at hp
    subst hp
    simp at hc
  | cons a cs ih =>
    simp only [splitNl] at hp
    split at hp
    · rcases List.mem_cons.mp hp with h | h
      · subst h; simp at hc
      · exact List.mem_cons_of_mem _ (ih h hc)
    · obtain ⟨q, qs, hq⟩ := List.exists_cons_of_ne_nil (splitNl_ne_nil cs)
      rw [hq] at hp
      simp only [List.modifyHead] at hp
      rcases List.mem_cons.mp hp with h | h
      · subst h
        rcases List.mem_cons.mp hc with h' | h'
        · subst h'; exact List.mem_cons_self _ _
        · exact List.mem_cons_of_mem _ (ih (hq ▸ List.mem_cons_self _ _) h')
      · exact List.mem_cons_of_mem _ (ih (hq ▸ List.mem_cons_of_mem _ h) hc)

theorem nl_not_mem_of_mem_splitNl {s p : Text}
    (hp : p ∈ splitNl s) : '\n' ∉ p := by
  induction s generalizing p with
  | nil =>
    simp [splitNl] at hp
    subst hp
    simp
  | cons a cs ih =>
    simp only [splitNl] at hp
    split at hp
    · rcases List.mem_cons.mp hp with h | h
      · subst h; simp
      · exact ih h
    · rename_i ha
      obtain ⟨q, qs, hq⟩ := List.exists_cons_of_ne_nil (splitNl_ne_nil cs)
      rw [hq] at hp
      simp only [List.modifyHead] at hp
      rcases List.mem_cons.mp hp with h | h
      · subst h
        intro hmem
        rcases List.mem_cons.mp hmem with h' | h'
        · exact ha h'.symm
        · exact ih (hq ▸ List.mem_cons_self _ _) h'
      · exact ih (hq ▸ List.mem_cons_of_mem _ h)

theorem mem_of_getLastEq {l : Text} {a : Char} (h : l.getLast? = some a) :
    a ∈ l := by
  induction l with
  | nil => simp at h
  | cons c cs ih =>
    cases cs with
    | nil => simp at h; simp [h]
    | cons d ds =>
      rw [List.getLast?_cons_cons] at h
      exact List.mem_cons_of_mem _ (ih h)

theorem stripCr_of_no_cr {l : Text} (h : '\r' ∉ l) : stripCr l = l := by
  unfold stripCr
  split
  · rename_i hl
    exact absurd (mem_of_getLastEq hl) h
  · rfl

theorem stripCr_subset {l : Text} : stripCr l ⊆ l := by
  unfold stripCr
  split
  · exact (List.dropLast_sublist l).subset
  · exact fun _ h => h

theorem mem_linesOfPieces {ps : List Text} {l : Text}
    (h : l ∈ linesOfPieces ps) : ∃ p, p ∈ ps ∧ l ⊆ p := by
  induction ps with
  | nil => simp [linesOfPieces] at h
  | cons p ps ih =>
    cases ps with
    | nil =>
      simp only [linesOfPieces] at h
      split at h
      · simp at h
      · simp at h
        exact ⟨p, List.mem_cons_self _ _, h ▸ fun _ hx => hx⟩
    | cons q qs =>
      simp only [linesOfPieces] at h
      rcases List.mem_cons.mp h with h' | h'
      · exact ⟨p, List.mem_cons_self _ _, h' ▸ stripCr_subset⟩
      · obtain ⟨r, hr, hsub⟩ := ih h'
        exact ⟨r, List.mem_cons_of_mem _ hr, hsub⟩

/-- Every line produced by the `str::lines()` model is made of characters of
the original text and contains no newline. -/
theorem mem_rustLines {s l : Text} (h : l ∈ rustLines s) :
    '\n' ∉ l ∧ ∀ c ∈ l, c ∈ s := by
  obtain ⟨p, hp, hsub⟩ := mem_linesOfPieces h
  exact ⟨fun hc => nl_not_mem_of_mem_splitNl hp (hsub hc),
    fun c hc => mem_of_mem_splitNl hp (hsub hc)⟩

theorem linesOfPieces_eq_self {ps : List Text}
    (h1 : ∀ p ∈ ps, stripCr p = p) (h2 : ps.getLast? ≠ some []) :
    linesOfPieces ps = ps := by
  induction ps with
  | nil => rfl
  | cons p ps ih =>
    cases ps with
    | nil =>
      simp only [linesOfPieces]
      rw [if_neg]
      intro hp
      exact h2 (by simp [hp])
    | cons q qs =>
      simp only [linesOfPieces]
      rw [h1 p (List.mem_cons_self _ _),
        ih (fun r hr => h1 r (List.mem_cons_of_mem _ hr))
          (by rwa [List.getLast?_cons_cons] at h2)]

theorem splitNl_cons (c : Char) (cs : Text) :
    splitNl (c :: cs) =
      if c = '\n' then [] :: splitNl cs
      else (splitNl cs).modifyHead (fun p => c :: p) := rfl

theorem splitNl_getLast_ne_nil {s : Text} (h0 : s ≠ [])
    (h : s.getLast? ≠ some '\n') : (splitNl s).getLast? ≠ some [] := by
  induction s with
  | nil => exact absurd rfl h0
  | cons c cs ih =>
    cases cs with
    | nil =>
      have hc : c ≠ '\n' := fun hc => h (by simp [hc])
      simp [splitNl, if_neg hc, List.modifyHead]
    | cons d ds =>
      rw [List.getLast?_cons_cons] at h
      have ihd := ih (by simp) h
      obtain ⟨q, qs, hq⟩ := List.exists_cons_of_ne_nil (splitNl_ne_nil (d :: ds))
      rw [hq] at ihd
      rw [splitNl_cons, hq]
      split
      · rwa [List.getLast?_cons_cons]
      · simp only [List.modifyHead]
        cases qs with
        | nil => simp
        | cons r rs => rwa [List.getLast?_cons_cons] at ihd ⊢

/-- For a text with no carriage returns and no trailing newline, the
`str::lines()` model is exactly `splitNl`, and joining the lines restores
the text. -/
theorem joinNl_rustLines {s : Text} (h1 : '\r' ∉ s)
    (h2 : s.getLast? ≠ some '\n') : joinNl (rustLines s) = s := by
  cases hs : s with
  | nil => rfl
  | cons c cs =>
    rw [← hs]
    unfold rustLines
    rw [linesOfPieces_eq_self
      (fun p hp => stripCr_of_no_cr (fun hc => h1 (mem_of_mem_splitNl hp hc)))
      (splitNl_getLast_ne_nil (by simp [hs]) h2)]
    exact joinNl_splitNl s

/-! ### Regression examples mirroring the unit tests of the source file -/

example :
    take_lines ("Lorem\nipsum\ndolor\nsit\namet".data)
      (.included 1) (.excluded 3) = "ipsum\ndolor".data := by decide

example :
    take_lines ("Lorem\nipsum\ndolor\nsit\namet".data)
      (.included 3) .unbounded = "sit\namet".data := by decide

example :
    take_lines ("Lorem\nipsum\ndolor\nsit\namet".data)
      .unbounded (.excluded 3) = "Lorem\nipsum\ndolor".data := by decide

example :
    take_lines ("Lorem\nipsum\ndolor\nsit\namet".data)
      .unbounded .unbounded = "Lorem\nipsum\ndolor\nsit\namet".data := by decide

example :
    take_lines ("Lorem\nipsum\ndolor\nsit\namet".data)
      (.included 4) (.excluded 3) = [] := by decide

example :
    take_lines ("Lorem\nipsum\ndolor\nsit\namet".data)
      .unbounded (.excluded 100) = "Lorem\nipsum\ndolor\nsit\namet".data := by
  decide

example :
    take_anchored_lines ("Lorem\nipsum\ndolor\nsit\namet".data) ("test".data)
      = [] := by decide

example :
    take_anchored_lines ("Lorem\nipsum\ndolor\nANCHOR_END: test\nsit\namet".data)
      ("test".data) = [] := by decide

example :
    take_anchored_lines ("Lorem\nipsum\nANCHOR: test\ndolor\nsit\namet".data)
      ("test".data) = "dolor\nsit\namet".data := by decide

example :
    take_anchored_lines ("Lorem\nipsum\nANCHOR: test\ndolor\nsit\namet".data)
      ("something".data) = [] := by decide

example :
    take_anchored_lines
      ("Lorem\nipsum\nANCHOR: test\ndolor\nsit\namet\nANCHOR_END: test\nlorem\nipsum".data)
      ("test".data) = "dolor\nsit\namet".data := by decide

example :
    take_anchored_lines
      ("Lorem\nANCHOR: test\nipsum\nANCHOR: test\ndolor\nsit\namet\nANCHOR_END: test\nlorem\nipsum".data)
      ("test".data) = "ipsum\ndolor\nsit\namet".data := by decide

example :
    take_anchored_lines
      ("Lorem\nANCHOR:    test2\nipsum\nANCHOR: test\ndolor\nsit\namet\nANCHOR_END: test\nlorem\nANCHOR_END:test2\nipsum".data)
      ("test2".data) = "ipsum\ndolor\nsit\namet\nlorem".data := by decide

example :
    take_anchored_lines
      ("Lorem\nANCHOR:    test2\nipsum\nANCHOR: test\ndolor\nsit\namet\nANCHOR_END: test\nlorem\nANCHOR_END:test2\nipsum".data)
      ("test".data) = "dolor\nsit\namet".data := by decide

theorem resolvedStart_lt {lo : Bound} (h : boundOk lo = true) :
    resolvedStart lo < USIZE := by
  cases lo with
  | included n => simpa [boundOk, resolvedStart] using h
  | excluded n => exact Nat.mod_lt _ (by decide)
  | unbounded => decide

/-! ### C2: full-range extraction -/

/-- C2 counterexample: extracting with the fully unbounded range is not the
identity on every text.  A text ending in a newline loses the trailing
separator (the final line ending is optional to the Rust line iterator), and a
`"\r\n"` pair is treated as a single separator and comes back as `"\n"`. -/
theorem c2_counterexample :
    take_lines ("\n".data) .unbounded .unbounded ≠ "\n".data ∧
    take_lines ("a\r\nb".data) .unbounded .unbounded ≠ "a\r\nb".data := by
  decide

/-- C2 (amended): for every text that contains no carriage-return character
and does not end in a newline, extracting with the range that is unbounded
on both ends returns the text unchanged. -/
theorem c2_full_range_id (s : Text) (h1 : '\r' ∉ s)
    (h2 : s.getLast? ≠ some '\n') :
    take_lines s .unbounded .unbounded = s := by
  show joinNl ((rustLines s).drop 0) = s
  rw [List.drop_zero]
  exact joinNl_rustLines h1 h2

theorem c2_full_range_id_witness :
    '\r' ∉ "Lorem\nipsum\ndolor\nsit\namet".data ∧
    ("Lorem\nipsum\ndolor\nsit\namet".data).getLast? ≠ some '\n' ∧
    take_lines ("Lorem\nipsum\ndolor\nsit\namet".data) .unbounded .unbounded =
      "Lorem\nipsum\ndolor\nsit\namet".data :=
  ⟨by decide, by decide, c2_full_range_id _ (by decide) (by decide)⟩

/-! ### C5: inverted ranges -/

/-- C5: a range whose resolved start index exceeds its resolved end index
extracts the empty text, because the keep-count is a saturating (clamped at
zero) subtraction. -/
theorem c5_inverted_range_empty (s : Text) (lo hi : Bound)
    (hok : boundOk lo = true) (hinv : invertedRange lo hi = true) :
    take_lines s lo hi = [] := by
  cases hi with
  | excluded e =>
    simp only [invertedRange, decide_eq_true_eq] at hinv
    show joinNl (((rustLines s).drop (resolvedStart lo)).take
      (e - resolvedStart lo)) = []
    rw [Nat.sub_eq_zero_of_le (Nat.le_of_lt hinv)]
    rfl
  | included e =>
    simp only [invertedRange, decide_eq_true_eq] at hinv
    have hU : e + 1 < USIZE := Nat.lt_of_le_of_lt hinv (resolvedStart_lt hok)
    show joinNl (((rustLines s).drop (resolvedStart lo)).take
      ((e + 1) % USIZE - resolvedStart lo)) = []
    rw [Nat.mod_eq_of_lt hU, Nat.sub_eq_zero_of_le hinv]
    rfl
  | unbounded => simp [invertedRange] at hinv

theorem c5_inverted_range_empty_witness :
    boundOk (.included 4) = true ∧
    invertedRange (.included 4) (.excluded 3) = true ∧
    take_lines ("Lorem\nipsum\ndolor\nsit\namet".data)
      (.included 4) (.excluded 3) = [] :=
  ⟨by decide, by decide,
    c5_inverted_range_empty _ _ _ (by decide) (by decide)⟩

/-! ### C6: out-of-bounds end bounds -/

/-- C6 counterexample: an inclusive end bound of `usize::MAX` exceeds the
line count, yet does not behave like an end bound equal to the line count:
the `end + 1` increment wraps to zero (release semantics of the unchecked
addition in the source), so nothing is kept instead of everything. -/
theorem c6_counterexample :
    (rustLines ("a".data)).length < USIZE - 1 ∧
    take_lines ("a".data) .unbounded (.included (USIZE - 1)) ≠
      take_lines ("a".data) .unbounded
        (.included ((rustLines ("a".data)).length)) := by
  constructor
  · decide
  · decide

/-- C6 (amended): a finite end bound exceeding the line count behaves
exactly like the same kind of end bound placed at the line count — except
for an inclusive bound of `usize::MAX`, whose increment overflows.  All
available lines after the start are kept; nothing is rejected. -/
theorem c6_end_clamped (s : Text) (lo hi : Bound)
    (h : endExceedsOk (rustLines s).length hi = true) :
    take_lines s lo hi =
      take_lines s lo (clampEnd (rustLines s).length hi) := by
  cases hi with
  | excluded e =>
    simp only [endExceedsOk, decide_eq_true_eq] at h
    show joinNl (((rustLines s).drop (resolvedStart lo)).take
        (e - resolvedStart lo)) =
      joinNl (((rustLines s).drop (resolvedStart lo)).take
        ((rustLines s).length - resolvedStart lo))
    have hlen : ((rustLines s).drop (resolvedStart lo)).length =
        (rustLines s).length - resolvedStart lo :=
      List.length_drop _ _
    rw [List.take_of_length_le
        (by rw [hlen]; exact Nat.sub_le_sub_right (Nat.le_of_lt h) _),
      List.take_of_length_le (le_of_eq hlen)]
  | included e =>
    simp only [endExceedsOk, Bool.and_eq_true, decide_eq_true_eq] at h
    obtain ⟨hL, hU⟩ := h
    have hLU : (rustLines s).length + 1 < USIZE := by omega
    show joinNl (((rustLines s).drop (resolvedStart lo)).take
        ((e + 1) % USIZE - resolvedStart lo)) =
      joinNl (((rustLines s).drop (resolvedStart lo)).take
        (((rustLines s).length + 1) % USIZE - resolvedStart lo))
    have hlen : ((rustLines s).drop (resolvedStart lo)).length =
        (rustLines s).length - resolvedStart lo :=
      List.length_drop _ _
    rw [Nat.mod_eq_of_lt hU, Nat.mod_eq_of_lt hLU,
      List.take_of_length_le (by rw [hlen]; omega),
      List.take_of_length_le (by rw [hlen]; omega)]
  | unbounded => simp [endExceedsOk] at h

theorem c6_end_clamped_witness :
    endExceedsOk
      (rustLines ("Lorem\nipsum\ndolor\nsit\namet".data)).length
      (.excluded 100) = true ∧
    take_lines ("Lorem\nipsum\ndolor\nsit\namet".data) .unbounded
        (.excluded 100) =
      take_lines ("Lorem\nipsum\ndolor\nsit\namet".data) .unbounded
        (clampEnd
          (rustLines ("Lorem\nipsum\ndolor\nsit\namet".data)).length
          (.excluded 100)) :=
  ⟨by decide, c6_end_clamped _ _ _ (by decide)⟩

/-! ### C4: totality over the machine-integer index range -/

/-- C4 counterexample: under the checked (debug) semantics of the two
`+ 1` increments in the source, an inclusive end bound of `usize::MAX` or an
exclusive start bound of `usize::MAX` makes the addition overflow instead of
producing a result. -/
theorem c4_counterexample :
    take_linesChecked [] .unbounded (.included (USIZE - 1)) = none ∧
    take_linesChecked [] (.excluded (USIZE - 1)) .unbounded = none := by
  decide

/-- C4 (amended): for every text and every pair of bounds whose resolution
does not increment `usize::MAX` (every combination except an exclusive start
of `usize::MAX` or an inclusive end of `usize::MAX`), the checked extractor
returns a result, and it agrees with the wrapping (release) extractor. -/
theorem c4_total_no_overflow (s : Text) (lo hi : Bound)
    (h : noOverflow lo hi = true) :
    take_linesChecked s lo hi = some (take_lines s lo hi) := by
  cases lo with
  | excluded n =>
    cases hi with
    | excluded e =>
      simp only [noOverflow, Bool.and_eq_true, decide_eq_true_eq] at h
      simp [take_linesChecked, take_lines, checkedSucc, resolvedStart,
        if_pos h.1, Nat.mod_eq_of_lt h.1]
    | included e =>
      simp only [noOverflow, Bool.and_eq_true, decide_eq_true_eq] at h
      simp [take_linesChecked, take_lines, checkedSucc, resolvedStart,
        if_pos h.1, if_pos h.2, Nat.mod_eq_of_lt h.1, Nat.mod_eq_of_lt h.2]
    | unbounded =>
      simp only [noOverflow, Bool.and_eq_true, decide_eq_true_eq] at h
      simp [take_linesChecked, take_lines, checkedSucc, resolvedStart,
        if_pos h.1, Nat.mod_eq_of_lt h.1]
  | included n =>
    cases hi with
    | excluded e =>
      simp [take_linesChecked, take_lines, checkedSucc, resolvedStart]
    | included e =>
      simp only [noOverflow, Bool.and_eq_true, decide_eq_true_eq] at h
      simp [take_linesChecked, take_lines, checkedSucc, resolvedStart,
        if_pos h.2, Nat.mod_eq_of_lt h.2]
    | unbounded =>
      simp [take_linesChecked, take_lines, checkedSucc, resolvedStart]
  | unbounded =>
    cases hi with
    | excluded e =>
      simp [take_linesChecked, take_lines, checkedSucc, resolvedStart]
    | included e =>
      simp only [noOverflow, Bool.and_eq_true, decide_eq_true_eq] at h
      simp [take_linesChecked, take_lines, checkedSucc, resolvedStart,
        if_pos h.2, Nat.mod_eq_of_lt h.2]
    | unbounded =>
      simp [take_linesChecked, take_lines, checkedSucc, resolvedStart]

theorem c4_total_no_overflow_witness :
    noOverflow (.excluded 0) (.included 2) = true ∧
    take_linesChecked ("Lorem\nipsum\ndolor\nsit\namet".data)
        (.excluded 0) (.included 2) =
      some (take_lines ("Lorem\nipsum\ndolor\nsit\namet".data)
        (.excluded 0) (.included 2)) :=
  ⟨by decide, c4_total_no_overflow _ _ _ (by decide)⟩

/-! ### C3: idempotence of re-extraction with the full range -/

theorem captureFrom_cons (a l : Text) (ls : List Text) :
    captureFrom a (l :: ls) =
      match RE_END_capture l with
      | some cap => if cap = a then [] else captureFrom a ls
      | none =>
        if RE_START_is_match l then captureFrom a ls
        else l :: captureFrom a ls := rfl

theorem searchFrom_cons (a l : Text) (ls : List Text) :
    searchFrom a (l :: ls) =
      match RE_START_capture l with
      | some cap =>
        if cap = a then captureFrom a ls else searchFrom a ls
      | none => searchFrom a ls := rfl

theorem mem_captureFrom {a x : Text} {ls : List Text}
    (h : x ∈ captureFrom a ls) : x ∈ ls := by
  induction ls with
  | nil => simp [captureFrom] at h
  | cons l ls ih =>
    cases hc : RE_END_capture l with
    | some cap =>
      simp only [captureFrom_cons, hc] at h
      split at h
      · simp at h
      · exact List.mem_cons_of_mem _ (ih h)
    | none =>
      simp only [captureFrom_cons, hc] at h
      split at h
      · exact List.mem_cons_of_mem _ (ih h)
      · rcases List.mem_cons.mp h with h' | h'
        · exact h' ▸ List.mem_cons_self _ _
        · exact List.mem_cons_of_mem _ (ih h')

theorem mem_searchFrom {a x : Text} {ls : List Text}
    (h : x ∈ searchFrom a ls) : x ∈ ls := by
  induction ls with
  | nil => simp [searchFrom] at h
  | cons l ls ih =>
    cases hc : RE_START_capture l with
    | some cap =>
      simp only [searchFrom_cons, hc] at h
      split at h
      · exact List.mem_cons_of_mem _ (mem_captureFrom h)
      · exact List.mem_cons_of_mem _ (ih h)
    | none =>
      simp only [searchFrom_cons, hc] at h
      exact List.mem_cons_of_mem _ (ih h)

/-- Joining nonempty, newline-free, carriage-return-free lines and
re-splitting recovers exactly those lines. -/
theorem rustLines_joinNl {ms : List Text}
    (h : ∀ l ∈ ms, l ≠ [] ∧ '\n' ∉ l ∧ '\r' ∉ l) :
    rustLines (joinNl ms) = ms := by
  induction ms with
  | nil => rfl
  | cons m ms ih =>
    cases ms with
    | nil =>
      obtain ⟨hne, hnl, _⟩ := h m (List.mem_cons_self _ _)
      show linesOfPieces (splitNl m) = [m]
      rw [splitNl_of_not_mem_nl hnl]
      simp [linesOfPieces, hne]
    | cons m2 ms2 =>
      obtain ⟨hne, hnl, hcr⟩ := h m (List.mem_cons_self _ _)
      have ih2 := ih (fun l hl => h l (List.mem_cons_of_mem _ hl))
      show linesOfPieces (splitNl (m ++ '\n' :: joinNl (m2 :: ms2))) =
        m :: m2 :: ms2
      rw [splitNl_append_nl _ hnl]
      obtain ⟨q, qs, hq⟩ :=
        List.exists_cons_of_ne_nil (splitNl_ne_nil (joinNl (m2 :: ms2)))
      rw [hq]
      show stripCr m :: linesOfPieces (q :: qs) = m :: m2 :: ms2
      rw [stripCr_of_no_cr hcr, ← hq,
        show linesOfPieces (splitNl (joinNl (m2 :: ms2))) =
          rustLines (joinNl (m2 :: ms2)) from rfl, ih2]

/-- Extracting with the fully unbounded range is the identity on any join
of nonempty, newline-free, carriage-return-free lines. -/
theorem take_lines_full_of_good {ms : List Text}
    (h : ∀ l ∈ ms, l ≠ [] ∧ '\n' ∉ l ∧ '\r' ∉ l) :
    take_lines (joinNl ms) .unbounded .unbounded = joinNl ms := by
  show joinNl ((rustLines (joinNl ms)).drop 0) = joinNl ms
  rw [List.drop_zero, rustLines_joinNl h]

/-- Every result of the range extractor is a join of some of the lines of
the input text. -/
theorem take_lines_eq_joinNl (s : Text) (lo hi : Bound) :
    ∃ ms : List Text,
      take_lines s lo hi = joinNl ms ∧ ∀ l ∈ ms, l ∈ rustLines s := by
  cases hi with
  | excluded e =>
    exact ⟨_, rfl,
      fun l hl => List.drop_subset _ _ (List.take_subset _ _ hl)⟩
  | included e =>
    exact ⟨_, rfl,
      fun l hl => List.drop_subset _ _ (List.take_subset _ _ hl)⟩
  | unbounded =>
    exact ⟨_, rfl, fun l hl => List.drop_subset _ _ hl⟩

/-- C3 counterexample: re-extracting the output of an extractor with the
full range is not always the identity.  A kept line can end in `'\r'` (when
the text contained `"\r\r\n"`), in which case the rejoined output contains a
fresh `"\r\n"` pair that the second pass collapses; and a kept trailing
empty line (from a text with consecutive separators) is dropped by the
second pass. -/
theorem c3_counterexample :
    take_lines (take_lines ("a\r\r\nb".data) .unbounded .unbounded)
        .unbounded .unbounded ≠
      take_lines ("a\r\r\nb".data) .unbounded .unbounded ∧
    take_lines (take_lines ("\n\na".data) .unbounded (.excluded 2))
        .unbounded .unbounded ≠
      take_lines ("\n\na".data) .unbounded (.excluded 2) := by
  decide

/-- C3 (amended): for every text with no carriage-return character in which
every line is nonempty, re-running the range extractor with the full
unbounded range on the output of either extractor returns that output
unchanged,
for every range and every anchor. -/
theorem c3_idempotent (s : Text) (h1 : '\r' ∉ s)
    (h2 : ∀ l ∈ rustLines s, l ≠ []) :
    (∀ lo hi, take_lines (take_lines s lo hi) .unbounded .unbounded =
      take_lines s lo hi) ∧
    (∀ a, take_lines (take_anchored_lines s a) .unbounded .unbounded =
      take_anchored_lines s a) := by
  have hg : ∀ l ∈ rustLines s, l ≠ [] ∧ '\n' ∉ l ∧ '\r' ∉ l := fun l hl =>
    ⟨h2 l hl, (mem_rustLines hl).1,
      fun hc => h1 ((mem_rustLines hl).2 _ hc)⟩
  constructor
  · intro lo hi
    obtain ⟨ms, hms, hsub⟩ := take_lines_eq_joinNl s lo hi
    rw [hms]
    exact take_lines_full_of_good (fun l hl => hg l (hsub l hl))
  · intro a
    rw [show take_anchored_lines s a =
      joinNl (searchFrom a (rustLines s)) from rfl]
    exact take_lines_full_of_good (fun l hl => hg l (mem_searchFrom hl))

theorem c3_idempotent_witness :
    '\r' ∉ "ANCHOR: test\nipsum\ndolor".data ∧
    (∀ l ∈ rustLines ("ANCHOR: test\nipsum\ndolor".data), l ≠ []) ∧
    take_lines
        (take_lines ("ANCHOR: test\nipsum\ndolor".data)
          (.included 1) .unbounded) .unbounded .unbounded =
      take_lines ("ANCHOR: test\nipsum\ndolor".data)
        (.included 1) .unbounded ∧
    take_lines
        (take_anchored_lines ("ANCHOR: test\nipsum\ndolor".data)
          ("test".data)) .unbounded .unbounded =
      take_anchored_lines ("ANCHOR: test\nipsum\ndolor".data)
        ("test".data) :=
  ⟨by decide, by decide,
    (c3_idempotent _ (by decide) (by decide)).1 _ _,
    (c3_idempotent _ (by decide) (by decide)).2 _⟩

/-! ### Helper lemmas about the anchor state machine -/

theorem searchFrom_eq_nil {a : Text} {ls : List Text}
    (h : ∀ l ∈ ls, RE_START_capture l ≠ some a) : searchFrom a ls = [] := by
  induction ls with
  | nil => rfl
  | cons l ls ih =>
    have ih' := ih (fun x hx => h x (List.mem_cons_of_mem _ hx))
    cases hc : RE_START_capture l with
    | some cap =>
      have hne : cap ≠ a := fun he => h l (List.mem_cons_self _ _) (he ▸ hc)
      simp [searchFrom_cons, hc, hne, ih']
    | none => simp [searchFrom_cons, hc, ih']

theorem searchFrom_append {a : Text} {pre rest : List Text}
    (h : ∀ l ∈ pre, RE_START_capture l ≠ some a) :
    searchFrom a (pre ++ rest) = searchFrom a rest := by
  induction pre with
  | nil => rfl
  | cons l pre ih =>
    have ih' := ih (fun x hx => h x (List.mem_cons_of_mem _ hx))
    cases hc : RE_START_capture l with
    | some cap =>
      have hne : cap ≠ a := fun he => h l (List.mem_cons_self _ _) (he ▸ hc)
      simp [List.cons_append, searchFrom_cons, hc, hne, ih']
    | none => simp [List.cons_append, searchFrom_cons, hc, ih']

theorem captureFrom_eq_filter {a : Text} {ls : List Text}
    (h : ∀ l ∈ ls, RE_END_capture l ≠ some a) :
    captureFrom a ls = ls.filter keepLine := by
  induction ls with
  | nil => rfl
  | cons l ls ih =>
    have ih' := ih (fun x hx => h x (List.mem_cons_of_mem _ hx))
    rw [List.filter_cons]
    cases hc : RE_END_capture l with
    | some cap =>
      have hne : cap ≠ a := fun he => h l (List.mem_cons_self _ _) (he ▸ hc)
      have hk : keepLine l = false := by simp [keepLine, hc]
      simp [captureFrom_cons, hc, hne, ih', hk]
    | none =>
      cases hm : RE_START_is_match l with
      | true =>
        have hk : keepLine l = false := by simp [keepLine, hm]
        simp [captureFrom_cons, hc, hm, ih', hk]
      | false =>
        have hk : keepLine l = true := by simp [keepLine, hc, hm]
        simp [captureFrom_cons, hc, hm, ih', hk]

theorem not_start_of_mem_captureFrom {a x : Text} {ls : List Text}
    (h : x ∈ captureFrom a ls) : RE_START_is_match x = false := by
  induction ls with
  | nil => simp [captureFrom] at h
  | cons l ls ih =>
    cases hc : RE_END_capture l with
    | some cap =>
      simp only [captureFrom_cons, hc] at h
      split at h
      · simp at h
      · exact ih h
    | none =>
      simp only [captureFrom_cons, hc] at h
      split at h
      · exact ih h
      · rename_i hm
        rcases List.mem_cons.mp h with h' | h'
        · subst h'
          exact Bool.eq_false_of_not_eq_true hm
        · exact ih h'

theorem not_start_of_mem_searchFrom {a x : Text} {ls : List Text}
    (h : x ∈ searchFrom a ls) : RE_START_is_match x = false := by
  induction ls with
  | nil => simp [searchFrom] at h
  | cons l ls ih =>
    cases hc : RE_START_capture l with
    | some cap =>
      simp only [searchFrom_cons, hc] at h
      split at h
      · exact not_start_of_mem_captureFrom h
      · exact ih h
    | none =>
      simp only [searchFrom_cons, hc] at h
      exact ih h

/-- Every captured marker name is a nonempty run of name characters. -/
theorem name_of_findCapture {lit l n : Text}
    (h : findCapture lit l = some n) :
    n ≠ [] ∧ ∀ c ∈ n, isNameChar c = true := by
  induction l with
  | nil => simp [findCapture] at h
  | cons c cs ih =>
    cases hca : captureAt lit (c :: cs) with
    | some m =>
      simp only [findCapture, hca] at h
      obtain rfl : m = n := Option.some_inj.mp h
      simp only [captureAt] at hca
      split at hca
      · split at hca
        · simp at hca
        · rename_i hname
          simp only [Option.some_inj] at hca
          subst hca
          exact ⟨hname, fun x hx => List.mem_takeWhile_imp hx⟩
      · simp at hca
    | none =>
      simp only [findCapture, hca] at h
      exact ih h

/-! ### C1: foreign end-markers while capturing -/

/-- C1 counterexample: with text `"ANCHOR: a\nANCHOR_END: b\nkeep"` and
anchor `"a"`, the line `"ANCHOR_END: b"` matches the end-marker pattern with
captured name `"b" ≠ "a"` and is scanned in the capturing state, yet it is
not retained in the output: the retained lines are exactly `["keep"]`. -/
theorem c1_counterexample :
    RE_END_capture ("ANCHOR_END: b".data) = some ("b".data) ∧
    ("b".data : Text) ≠ "a".data ∧
    searchFrom ("a".data)
        (rustLines ("ANCHOR: a\nANCHOR_END: b\nkeep".data)) =
      ["keep".data] ∧
    ("ANCHOR_END: b".data) ∉
      searchFrom ("a".data)
        (rustLines ("ANCHOR: a\nANCHOR_END: b\nkeep".data)) := by
  decide

/-- C1 (amended): while capturing, a line matching the end-marker pattern
whose captured name differs from the requested anchor does not close the
capture — scanning continues over the remaining lines — but the line itself
is suppressed from the output, not retained. -/
theorem c1_foreign_end_marker (a c l : Text) (ls : List Text)
    (hc : RE_END_capture l = some c) (hne : c ≠ a) :
    captureFrom a (l :: ls) = captureFrom a ls := by
  simp [captureFrom_cons, hc, hne]

theorem c1_foreign_end_marker_witness :
    RE_END_capture ("ANCHOR_END: d".data) = some ("d".data) ∧
    ("d".data : Text) ≠ "c".data ∧
    captureFrom ("c".data) ["ANCHOR_END: d".data, "x".data] =
      captureFrom ("c".data) ["x".data] :=
  ⟨by decide, by decide,
    c1_foreign_end_marker ("c".data) ("d".data) ("ANCHOR_END: d".data)
      ["x".data] (by decide) (by decide)⟩

/-! ### C7: anchor never found -/

/-- C7: if the start-marker capture of no line equals the requested anchor, the
scan stays in the searching state through the end of input and the result
is empty. -/
theorem c7_anchor_not_found (s a : Text)
    (h : ∀ l ∈ rustLines s, RE_START_capture l ≠ some a) :
    take_anchored_lines s a = [] := by
  show joinNl (searchFrom a (rustLines s)) = []
  rw [searchFrom_eq_nil h]
  rfl

theorem c7_anchor_not_found_witness :
    (∀ l ∈ rustLines ("Lorem\nipsum\ndolor\nsit\namet".data),
      RE_START_capture l ≠ some ("test".data)) ∧
    take_anchored_lines ("Lorem\nipsum\ndolor\nsit\namet".data)
      ("test".data) = [] :=
  ⟨by decide, c7_anchor_not_found _ _ (by decide)⟩

/-! ### C8: unterminated anchors -/

/-- C8: if the first start marker for the anchor is found and no later line
carries a matching end-marker capture, the result is every following line
kept by the retention rule of the capturing state (lines with any end-marker
capture or any start-marker match are suppressed), through end of input. -/
theorem c8_unterminated (s a m : Text) (pre post : List Text)
    (hsplit : rustLines s = pre ++ m :: post)
    (hpre : ∀ l ∈ pre, RE_START_capture l ≠ some a)
    (hm : RE_START_capture m = some a)
    (hpost : ∀ l ∈ post, RE_END_capture l ≠ some a) :
    take_anchored_lines s a = joinNl (post.filter keepLine) := by
  show joinNl (searchFrom a (rustLines s)) = _
  rw [hsplit, searchFrom_append hpre]
  simp only [searchFrom_cons, hm, if_pos]
  rw [captureFrom_eq_filter hpost]

theorem c8_unterminated_witness :
    rustLines ("intro\nANCHOR: frag\nfoo\nANCHOR: other\nbar".data) =
      ["intro".data] ++ "ANCHOR: frag".data ::
        ["foo".data, "ANCHOR: other".data, "bar".data] ∧
    take_anchored_lines
        ("intro\nANCHOR: frag\nfoo\nANCHOR: other\nbar".data)
        ("frag".data) =
      joinNl ((["foo".data, "ANCHOR: other".data, "bar".data]).filter
        keepLine) :=
  ⟨by decide,
    c8_unterminated ("intro\nANCHOR: frag\nfoo\nANCHOR: other\nbar".data)
      ("frag".data) ("ANCHOR: frag".data) ["intro".data]
      ["foo".data, "ANCHOR: other".data, "bar".data]
      (by decide) (by decide) (by decide) (by decide)⟩

/-! ### C9: start markers never reach the output -/

/-- C9: no retained line matches the start-marker pattern (start markers
are suppressed in both states), and while capturing, a suppressed
start-marker line (one that carries no closing end-marker capture for the
requested anchor) neither stops nor restarts the capture: the scan of the
remaining lines is unchanged. -/
theorem c9_no_start_marker_in_output (s a : Text) :
    (∀ l ∈ searchFrom a (rustLines s), RE_START_is_match l = false) ∧
    (∀ (l : Text) (ls : List Text), RE_START_is_match l = true →
      RE_END_capture l ≠ some a →
      captureFrom a (l :: ls) = captureFrom a ls) := by
  constructor
  · intro l hl
    exact not_start_of_mem_searchFrom hl
  · intro l ls hstart hend
    cases hc : RE_END_capture l with
    | some cap =>
      have hne : cap ≠ a := fun he => hend (he ▸ hc)
      simp [captureFrom_cons, hc, hne]
    | none => simp [captureFrom_cons, hc, hstart]

theorem c9_no_start_marker_in_output_witness :
    RE_START_is_match ("ipsum".data) = false ∧
    captureFrom ("test".data) ["ANCHOR: test".data, "z".data] =
      captureFrom ("test".data) ["z".data] :=
  ⟨(c9_no_start_marker_in_output ("ANCHOR: test\nipsum".data)
      ("test".data)).1 _ (by decide),
    (c9_no_start_marker_in_output ("ANCHOR: test\nipsum".data)
      ("test".data)).2 _ _ (by decide) (by decide)⟩

end MdBookStringUtils
